import Mathlib

/-!
Verification of the anagram solver core (src/angsolver.py).

The Python code works with `collections.Counter` values, which are insertion
ordered dictionaries mapping characters to integer counts.  We embed a
Counter as an association list `List (Char × Int)`:

* `cntGet m c`     — `m[c]` through `Counter.__getitem__` / `dict.get(c, 0)`
                     (first entry with the key, default 0; a key deleted by
                     `del` is simply absent, so the lookup yields 0);
* `cntMem m c`     — the `c in m` test (key presence);
* `cntSet m c v`   — `m[c] = v` (update in place when present, else append,
                     matching dict insertion order);
* `cntDel m c`     — `del m[c]`;
* `cntSum m`       — `sum(m.values())`;
* `counterStr s`   — `Counter(s)` for a string `s` (counts in first
                     occurrence order);
* `cntUpdate m w`  — `m.update(w)` (adds the counts of `w` into `m`).

Reachable Counters of the program have pairwise distinct keys and strictly
positive counts; the predicate `WFcnt` captures this dictionary/multiset
invariant and is taken as the meaning of the specification word "multiset".
-/

abbrev Cnt := List (Char × Int)

def cntGet : Cnt → Char → Int
  | [], _ => 0
  | p :: rest, c => if p.1 = c then p.2 else cntGet rest c

def cntMem : Cnt → Char → Bool
  | [], _ => false
  | p :: rest, c => p.1 = c || cntMem rest c

/-- Replacement of the value at every entry whose key is `c` (a reachable
dictionary has at most one such entry). -/
def setInPlace : Cnt → Char → Int → Cnt
  | [], _, _ => []
  | p :: rest, c, v => (if p.1 = c then (c, v) else p) :: setInPlace rest c v

def cntSet (m : Cnt) (c : Char) (v : Int) : Cnt :=
  if cntMem m c then setInPlace m c v else m ++ [(c, v)]

def cntDel (m : Cnt) (c : Char) : Cnt :=
  m.filter (fun p => !(p.1 = c : Bool))

def cntSum (m : Cnt) : Int :=
  (m.map Prod.snd).sum

def cntIncr (m : Cnt) (c : Char) : Cnt :=
  cntSet m c (cntGet m c + 1)

def counterStr (s : String) : Cnt :=
  s.data.foldl cntIncr []

def cntUpdate (m : Cnt) (w : Cnt) : Cnt :=
  w.foldl (fun acc p => cntSet acc p.1 (cntGet acc p.1 + p.2)) m

/-- The dictionary/multiset invariant of every reachable Counter: keys are
pairwise distinct and all stored counts are strictly positive. -/
def WFcnt (m : Cnt) : Prop :=
  (m.map Prod.fst).Nodup ∧ ∀ p ∈ m, 0 < p.2

instance (m : Cnt) : Decidable (WFcnt m) := by
  unfold WFcnt; infer_instance

/-! Basic lookup lemmas. -/

theorem cntMem_iff_keys (m : Cnt) (c : Char) :
    cntMem m c = true ↔ c ∈ m.map Prod.fst := by
  induction m with
  | nil => simp [cntMem]
  | cons p rest ih =>
    simp only [cntMem, Bool.or_eq_true, decide_eq_true_eq, List.map_cons,
      List.mem_cons, ih]
    constructor
    · rintro (h | h)
      · exact Or.inl h.symm
      · exact Or.inr h
    · rintro (h | h)
      · exact Or.inl h.symm
      · exact Or.inr h

theorem cntGet_of_not_mem (m : Cnt) (c : Char) (h : cntMem m c = false) :
    cntGet m c = 0 := by
  induction m with
  | nil => rfl
  | cons p rest ih =>
    simp only [cntMem, Bool.or_eq_false_iff, decide_eq_false_iff_not] at h
    simp [cntGet, h.1, ih h.2]

theorem cntGet_setInPlace_self (m : Cnt) (c : Char) (v : Int)
    (h : cntMem m c = true) : cntGet (setInPlace m c v) c = v := by
  induction m with
  | nil => simp [cntMem] at h
  | cons p rest ih =>
    by_cases hp : p.1 = c
    · simp [setInPlace, hp, cntGet]
    · simp only [cntMem, Bool.or_eq_true, decide_eq_true_eq, hp,
        false_or] at h
      simp [setInPlace, hp, cntGet, ih h]

theorem cntGet_setInPlace_ne (m : Cnt) (c c' : Char) (v : Int)
    (h : c' ≠ c) : cntGet (setInPlace m c v) c' = cntGet m c' := by
  have hcc : ¬ (c = c') := fun he => h he.symm
  induction m with
  | nil => rfl
  | cons p rest ih =>
    by_cases hp : p.1 = c
    · have hpc : ¬ (p.1 = c') := by rw [hp]; exact hcc
      simp [setInPlace, hp, cntGet, hcc, hpc, ih]
    · by_cases hp' : p.1 = c'
      · simp [setInPlace, hp, cntGet, hp', hcc, h]
      · simp [setInPlace, hp, cntGet, hp', ih]

theorem cntGet_append (m m' : Cnt) (c : Char) :
    cntGet (m ++ m') c = if cntMem m c then cntGet m c else cntGet m' c := by
  induction m with
  | nil => simp [cntGet, cntMem]
  | cons p rest ih =>
    by_cases hp : p.1 = c
    · simp [cntGet, cntMem, hp]
    · simp [cntGet, cntMem, hp, ih]

theorem cntGet_set_self (m : Cnt) (c : Char) (v : Int) :
    cntGet (cntSet m c v) c = v := by
  unfold cntSet
  by_cases h : cntMem m c
  · simp [h, cntGet_setInPlace_self m c v h]
  · simp [h, cntGet_append, cntGet]

theorem cntGet_set_ne (m : Cnt) (c c' : Char) (v : Int) (h : c' ≠ c) :
    cntGet (cntSet m c v) c' = cntGet m c' := by
  have hcc : ¬ (c = c') := fun he => h he.symm
  unfold cntSet
  by_cases hm : cntMem m c
  · simp [hm, cntGet_setInPlace_ne m c c' v h]
  · by_cases hm' : cntMem m c'
    · simp [hm, cntGet_append, hm']
    · have h1 : cntGet m c' = 0 := cntGet_of_not_mem m c' (by simpa using hm')
      simp only [hm, Bool.false_eq_true, if_false]
      rw [cntGet_append, if_neg (by simp [hm']), h1]
      simp [cntGet, hcc]

theorem cntGet_del_self (m : Cnt) (c : Char) :
    cntGet (cntDel m c) c = 0 := by
  induction m with
  | nil => rfl
  | cons p rest ih =>
    by_cases hp : p.1 = c
    · simpa [cntDel, List.filter_cons, hp] using ih
    · simp only [cntDel, List.filter_cons] at *
      simp [hp, cntGet, ih]

theorem cntGet_del_ne (m : Cnt) (c c' : Char) (h : c' ≠ c) :
    cntGet (cntDel m c) c' = cntGet m c' := by
  have hcc : ¬ (c = c') := fun he => h he.symm
  induction m with
  | nil => rfl
  | cons p rest ih =>
    simp only [cntDel, List.filter_cons] at *
    by_cases hp : p.1 = c
    · have hpc : ¬ (p.1 = c') := by rw [hp]; exact hcc
      simp [hp, cntGet, hpc, hcc, ih]
    · by_cases hp' : p.1 = c'
      · simp [hp, cntGet, hp', hcc, h]
      · simp [hp, cntGet, hp', ih]

/-! Membership, key, entry and sum lemmas. -/

theorem keys_setInPlace (m : Cnt) (c : Char) (v : Int) :
    (setInPlace m c v).map Prod.fst = m.map Prod.fst := by
  induction m with
  | nil => rfl
  | cons p rest ih =>
    by_cases hp : p.1 = c
    · simp [setInPlace, hp, ih]
    · simp [setInPlace, hp, ih]

theorem cntMem_setInPlace (m : Cnt) (c c' : Char) (v : Int) :
    cntMem (setInPlace m c v) c' = cntMem m c' := by
  rcases h : cntMem m c'
  · rcases h2 : cntMem (setInPlace m c v) c'
    · rfl
    · rw [cntMem_iff_keys, keys_setInPlace, ← cntMem_iff_keys, h] at h2
      exact h2.symm
  · rw [cntMem_iff_keys] at h ⊢
    rwa [keys_setInPlace]

theorem cntMem_set_self (m : Cnt) (c : Char) (v : Int) :
    cntMem (cntSet m c v) c = true := by
  unfold cntSet
  by_cases h : cntMem m c
  · rwa [if_pos h, cntMem_setInPlace]
  · rw [if_neg h, cntMem_iff_keys]
    simp

theorem cntMem_append (m m' : Cnt) (c : Char) :
    cntMem (m ++ m') c = (cntMem m c || cntMem m' c) := by
  induction m with
  | nil => simp [cntMem]
  | cons p rest ih => simp [cntMem, ih, Bool.or_assoc]

theorem cntMem_set_ne (m : Cnt) (c c' : Char) (v : Int) (h : c' ≠ c) :
    cntMem (cntSet m c v) c' = cntMem m c' := by
  unfold cntSet
  by_cases hm : cntMem m c
  · rw [if_pos hm, cntMem_setInPlace]
  · rw [if_neg hm, cntMem_append]
    have hcc : ¬ (c = c') := fun he => h he.symm
    simp [cntMem, hcc]

theorem cntMem_del_self (m : Cnt) (c : Char) :
    cntMem (cntDel m c) c = false := by
  induction m with
  | nil => rfl
  | cons p rest ih =>
    simp only [cntDel, List.filter_cons] at *
    by_cases hp : p.1 = c
    · simpa [hp] using ih
    · simpa [hp, cntMem] using ih

theorem cntMem_del_ne (m : Cnt) (c c' : Char) (h : c' ≠ c) :
    cntMem (cntDel m c) c' = cntMem m c' := by
  have hcc : ¬ (c = c') := fun he => h he.symm
  induction m with
  | nil => rfl
  | cons p rest ih =>
    simp only [cntDel, List.filter_cons] at *
    by_cases hp : p.1 = c
    · have hpc : ¬ (p.1 = c') := by rw [hp]; exact hcc
      simp [hp, cntMem, hpc, hcc, ih]
    · simp [hp, cntMem, ih]

theorem mem_of_mem_setInPlace (m : Cnt) (c : Char) (v : Int) (p : Char × Int)
    (h : p ∈ setInPlace m c v) : p ∈ m ∨ p = (c, v) := by
  induction m with
  | nil => simp [setInPlace] at h
  | cons q rest ih =>
    by_cases hq : q.1 = c
    · simp only [setInPlace, hq, if_pos, List.mem_cons] at h
      rcases h with h | h
      · exact Or.inr h
      · rcases ih h with h2 | h2
        · exact Or.inl (List.mem_cons_of_mem q h2)
        · exact Or.inr h2
    · simp only [setInPlace, hq, if_neg, List.mem_cons] at h
      rcases h with h | h
      · exact Or.inl (by simp [h])
      · rcases ih h with h2 | h2
        · exact Or.inl (List.mem_cons_of_mem q h2)
        · exact Or.inr h2

theorem mem_of_mem_set (m : Cnt) (c : Char) (v : Int) (p : Char × Int)
    (h : p ∈ cntSet m c v) : p ∈ m ∨ p = (c, v) := by
  unfold cntSet at h
  by_cases hm : cntMem m c
  · rw [if_pos hm] at h
    exact mem_of_mem_setInPlace m c v p h
  · rw [if_neg hm] at h
    simpa using h

theorem mem_of_mem_del (m : Cnt) (c : Char) (p : Char × Int)
    (h : p ∈ cntDel m c) : p ∈ m :=
  List.mem_of_mem_filter h

/-- The keys of an updated dictionary: unchanged when the key is present,
the new key appended otherwise. -/
theorem keys_set (m : Cnt) (c : Char) (v : Int) :
    (cntSet m c v).map Prod.fst =
      if cntMem m c then m.map Prod.fst else m.map Prod.fst ++ [c] := by
  unfold cntSet
  by_cases h : cntMem m c
  · simp [h, keys_setInPlace]
  · simp [h]

theorem nodup_keys_set (m : Cnt) (c : Char) (v : Int)
    (h : (m.map Prod.fst).Nodup) : ((cntSet m c v).map Prod.fst).Nodup := by
  rw [keys_set]
  by_cases hm : cntMem m c
  · simpa [hm] using h
  · have hc : c ∉ m.map Prod.fst := by
      rw [← cntMem_iff_keys]
      simp [hm]
    simp [hm, List.nodup_append, h, hc]

theorem nodup_keys_del (m : Cnt) (c : Char)
    (h : (m.map Prod.fst).Nodup) : ((cntDel m c).map Prod.fst).Nodup := by
  have : (cntDel m c).map Prod.fst |>.Sublist (m.map Prod.fst) :=
    (List.filter_sublist m).map Prod.fst
  exact this.nodup h

/-- Deleting an absent key is the identity. -/
theorem cntDel_of_not_mem (m : Cnt) (c : Char) (h : cntMem m c = false) :
    cntDel m c = m := by
  induction m with
  | nil => rfl
  | cons p rest ih =>
    simp only [cntMem, Bool.or_eq_false_iff, decide_eq_false_iff_not] at h
    have h2 : cntDel rest c = rest := ih h.2
    rw [cntDel, List.filter_cons]
    simp only [h.1, decide_eq_false_iff_not, not_false_eq_true, decide_eq_true_eq,
      if_pos, Bool.not_eq_true']
    rw [show List.filter (fun p => !(decide (p.1 = c))) rest = cntDel rest c from rfl, h2]

theorem setInPlace_of_not_mem (m : Cnt) (c : Char) (v : Int)
    (h : cntMem m c = false) : setInPlace m c v = m := by
  induction m with
  | nil => rfl
  | cons p rest ih =>
    simp only [cntMem, Bool.or_eq_false_iff, decide_eq_false_iff_not] at h
    simp [setInPlace, h.1, ih h.2]

theorem cntSum_setInPlace (m : Cnt) (c : Char) (v : Int)
    (hnd : (m.map Prod.fst).Nodup) (hm : cntMem m c = true) :
    cntSum (setInPlace m c v) = cntSum m - cntGet m c + v := by
  induction m with
  | nil => simp [cntMem] at hm
  | cons p rest ih =>
    simp only [List.map_cons, List.nodup_cons] at hnd
    by_cases hp : p.1 = c
    · have hrest : cntMem rest c = false := by
        rcases h2 : cntMem rest c
        · rfl
        · exact absurd ((cntMem_iff_keys rest c).mp h2) (hp ▸ hnd.1)
      rw [setInPlace, if_pos hp, setInPlace_of_not_mem rest c v hrest]
      simp [cntSum, cntGet, hp]
      ring
    · simp only [cntMem, Bool.or_eq_true, decide_eq_true_eq, hp,
        false_or] at hm
      rw [setInPlace, if_neg hp]
      simp [cntSum, cntGet, hp] at *
      rw [ih hnd.2 hm]
      ring

theorem cntSum_set (m : Cnt) (c : Char) (v : Int)
    (hnd : (m.map Prod.fst).Nodup) :
    cntSum (cntSet m c v) = cntSum m - cntGet m c + v := by
  unfold cntSet
  by_cases h : cntMem m c
  · rw [if_pos h]
    exact cntSum_setInPlace m c v hnd h
  · rw [if_neg h, cntGet_of_not_mem m c (by simpa using h)]
    simp [cntSum]

theorem cntSum_del (m : Cnt) (c : Char)
    (hnd : (m.map Prod.fst).Nodup) :
    cntSum (cntDel m c) = cntSum m - cntGet m c := by
  induction m with
  | nil => simp [cntDel, cntSum, cntGet]
  | cons p rest ih =>
    simp only [List.map_cons, List.nodup_cons] at hnd
    by_cases hp : p.1 = c
    · have hrest : cntMem rest c = false := by
        rcases h2 : cntMem rest c
        · rfl
        · exact absurd ((cntMem_iff_keys rest c).mp h2) (hp ▸ hnd.1)
      have h3 : cntDel (p :: rest) c = rest := by
        rw [cntDel, List.filter_cons]
        simp only [hp, decide_eq_true_eq, if_pos, Bool.not_eq_true',
          decide_eq_false_iff_not]
        rw [show List.filter (fun p => !(decide (p.1 = c))) rest = cntDel rest c from rfl,
          cntDel_of_not_mem rest c hrest]
        simp [hp]
      rw [h3]
      simp [cntSum, cntGet, hp]
    · have h3 : cntDel (p :: rest) c = p :: cntDel rest c := by
        rw [cntDel, List.filter_cons]
        simp [hp, cntDel]
      rw [h3]
      have h4 := ih hnd.2
      simp only [cntSum, cntGet, List.map_cons, List.sum_cons, hp, if_false] at h4 ⊢
      rw [h4]
      ring

/-! Positivity and `Counter(string)` lemmas. -/

theorem cntGet_nonneg (m : Cnt) (c : Char) (h : ∀ p ∈ m, 0 < p.2) :
    0 ≤ cntGet m c := by
  induction m with
  | nil => simp [cntGet]
  | cons p rest ih =>
    by_cases hp : p.1 = c
    · simp only [cntGet, hp, if_pos]
      exact le_of_lt (h p (by simp))
    · simp only [cntGet, hp, if_neg, if_false]
      exact ih (fun q hq => h q (List.mem_cons_of_mem p hq))

theorem cntMem_iff_pos (m : Cnt) (c : Char) (h : ∀ p ∈ m, 0 < p.2) :
    cntMem m c = true ↔ 0 < cntGet m c := by
  induction m with
  | nil => simp [cntMem, cntGet]
  | cons p rest ih =>
    by_cases hp : p.1 = c
    · simp only [cntMem, cntGet, hp, decide_eq_true_eq, if_pos]
      simp
      exact h p (by simp)
    · simp only [cntMem, cntGet, hp, if_neg, if_false, Bool.or_eq_true,
        decide_eq_true_eq, false_or]
      exact ih (fun q hq => h q (List.mem_cons_of_mem p hq))

theorem map_keys_get (m : Cnt) (hnd : (m.map Prod.fst).Nodup) :
    (m.map Prod.fst).map (cntGet m) = m.map Prod.snd := by
  induction m with
  | nil => rfl
  | cons p rest ih =>
    simp only [List.map_cons, List.nodup_cons] at hnd ⊢
    have hhead : cntGet (p :: rest) p.1 = p.2 := by simp [cntGet]
    have htail : (rest.map Prod.fst).map (cntGet (p :: rest)) =
        (rest.map Prod.fst).map (cntGet rest) := by
      apply List.map_congr_left
      intro k hk
      have hne : ¬ (p.1 = k) := fun he => hnd.1 (he ▸ hk)
      simp [cntGet, hne]
    rw [hhead, htail, ih hnd.2]

theorem foldl_incr_spec (l : List Char) : ∀ m : Cnt,
    (m.map Prod.fst).Nodup → (∀ p ∈ m, 0 < p.2) →
    ((l.foldl cntIncr m).map Prod.fst).Nodup ∧
    (∀ p ∈ l.foldl cntIncr m, 0 < p.2) ∧
    (∀ c, cntGet (l.foldl cntIncr m) c = cntGet m c + (l.count c : Int)) ∧
    cntSum (l.foldl cntIncr m) = cntSum m + (l.length : Int) := by
  induction l with
  | nil =>
    intro m h1 h2
    exact ⟨h1, h2, fun c => by simp, by simp⟩
  | cons a l ih =>
    intro m h1 h2
    have hpos : 0 < cntGet m a + 1 := by
      have := cntGet_nonneg m a h2
      omega
    have h1' : ((cntIncr m a).map Prod.fst).Nodup := nodup_keys_set m a _ h1
    have h2' : ∀ p ∈ cntIncr m a, 0 < p.2 := by
      intro p hp
      rcases mem_of_mem_set m a _ p hp with h | h
      · exact h2 p h
      · rw [h]
        exact hpos
    obtain ⟨k1, k2, k3, k4⟩ := ih (cntIncr m a) h1' h2'
    refine ⟨k1, k2, ?_, ?_⟩
    · intro c
      rw [List.foldl_cons, k3 c]
      by_cases hc : c = a
      · subst hc
        rw [cntIncr, cntGet_set_self]
        simp [List.count_cons]
        ring
      · rw [cntIncr, cntGet_set_ne m a c _ hc]
        simp [List.count_cons, hc]
    · rw [List.foldl_cons, k4, cntIncr, cntSum_set m a _ h1]
      simp
      ring

theorem counterStr_WF (s : String) : WFcnt (counterStr s) := by
  obtain ⟨k1, k2, _, _⟩ := foldl_incr_spec s.data [] (by simp) (by simp)
  exact ⟨k1, k2⟩

theorem cntGet_counterStr (s : String) (c : Char) :
    cntGet (counterStr s) c = (s.data.count c : Int) := by
  obtain ⟨_, _, k3, _⟩ := foldl_incr_spec s.data [] (by simp) (by simp)
  simpa [cntGet] using k3 c

theorem cntSum_counterStr (s : String) :
    cntSum (counterStr s) = (s.data.length : Int) := by
  obtain ⟨_, _, _, k4⟩ := foldl_incr_spec s.data [] (by simp) (by simp)
  simpa [cntSum] using k4

theorem keys_counterStr (s : String) (c : Char) :
    c ∈ (counterStr s).map Prod.fst ↔ c ∈ s.data := by
  rw [← cntMem_iff_keys, cntMem_iff_pos _ _ (counterStr_WF s).2,
    cntGet_counterStr]
  constructor
  · intro h
    have : 0 < s.data.count c := by exact_mod_cast h
    exact List.count_pos_iff.mp this
  · intro h
    have : 0 < s.data.count c := List.count_pos_iff.mpr h
    exact_mod_cast this

/-!
Embedding of the Python functions of src/angsolver.py.

`lowerStr` models the `str.lower` method (character-wise `Char.toLower`),
`stripSpaces` models `str.replace(" ", "")` (removal of every space).
The Python builtin `sorted` is a stable sort with respect to its key; it is
embedded as `List.insertionSort` (also stable) with the corresponding total
preorder.
-/

def lowerStr (s : String) : String :=
  ⟨s.data.map Char.toLower⟩

def stripSpaces (s : String) : String :=
  ⟨s.data.filter (fun c => !(c = ' ' : Bool))⟩

/-- The loop body of `subtract_letters` (lines 24-35): for each distinct
character of the lowercased word (in first occurrence order), mirror

    if char in remaining:
        remaining[char] -= word_count[char]
        if remaining[char] <= 0: del remaining[char]
        if remaining[char] < 0: raise ValueError(...)

A raised `ValueError` is the `.error` result. -/
def subLoop (word : String) (word_count : Cnt) : List Char → Cnt → Except String Cnt
  | [], remaining => .ok remaining
  | c :: rest, remaining =>
    if cntMem remaining c then
      let r1 := cntSet remaining c (cntGet remaining c - cntGet word_count c)
      let r2 := if cntGet r1 c ≤ 0 then cntDel r1 c else r1
      if cntGet r2 c < 0 then
        .error s!"Word {word} uses more {c} than available"
      else subLoop word word_count rest r2
    else subLoop word word_count rest remaining

/-- `subtract_letters(letter_count, word)` (lines 24-35).  `remaining`
starts as a copy of `letter_count`; iteration over `word_count` visits the
dictionary keys, i.e. the distinct characters of `word.lower()` in first
occurrence order. -/
def subtract_letters (letter_count : Cnt) (word : String) : Except String Cnt :=
  let word_count := counterStr (lowerStr word)
  subLoop word word_count (word_count.map Prod.fst) letter_count

/-- `is_valid_anagram(letters_count, word)` (lines 37-40).  Note that the
source builds `Counter(word)` without lowercasing here. -/
def is_valid_anagram (letters_count : Cnt) (word : String) : Bool :=
  let word_count := counterStr word
  (word_count.map Prod.fst).all
    (fun c => decide (cntGet word_count c ≤ cntGet letters_count c))

/-- The sort key of line 63, `key=lambda x: (-len(x), x)`, as a total
preorder: longer words first, ties in ascending lexicographic order. -/
def ordKey (a b : String) : Prop :=
  b.length < a.length ∨ (a.length = b.length ∧ a ≤ b)

instance : DecidableRel ordKey := fun a b => by
  unfold ordKey
  infer_instance

instance : IsTotal String ordKey where
  total a b := by
    unfold ordKey
    rcases Nat.lt_trichotomy a.length b.length with h | h | h
    · exact Or.inr (Or.inl h)
    · rcases le_total a b with h2 | h2
      · exact Or.inl (Or.inr ⟨h, h2⟩)
      · exact Or.inr (Or.inr ⟨h.symm, h2⟩)
    · exact Or.inl (Or.inl h)

instance : IsTrans String ordKey where
  trans a b c hab hbc := by
    unfold ordKey at *
    rcases hab with h1 | ⟨h1, h1'⟩
    · rcases hbc with h2 | ⟨h2, h2'⟩
      · exact Or.inl (lt_trans h2 h1)
      · exact Or.inl (h2 ▸ h1)
    · rcases hbc with h2 | ⟨h2, h2'⟩
      · exact Or.inl (h1 ▸ h2)
      · exact Or.inr ⟨h1.trans h2, le_trans h1' h2'⟩

instance : IsAntisymm String ordKey where
  antisymm a b hab hba := by
    unfold ordKey at *
    rcases hab with h1 | ⟨h1, h1'⟩
    · rcases hba with h2 | ⟨h2, h2'⟩
      · exact absurd (lt_trans h1 h2) (lt_irrefl _)
      · exact absurd h1 (h2 ▸ lt_irrefl _)
    · rcases hba with h2 | ⟨h2, h2'⟩
      · exact absurd h2 (h1 ▸ lt_irrefl _)
      · exact le_antisymm h1' h2'

/-- The filtering and sorting stage of `find_anagrams` (lines 56-63),
parameterised by the (possibly exclusion-reduced) letter multiset:

    anagrams = []
    for word in word_list:
        if (len(word) <= sum(letters_count.values()) and
            len(word) >= min_length and
            is_valid_anagram(letters_count, word)):
            anagrams.append(word)
    return sorted(anagrams, key=lambda x: (-len(x), x))
-/
def matchStage (letters_count : Cnt) (word_list : List String) (min_length : Nat) :
    List String :=
  (word_list.filter (fun word =>
      decide ((word.length : Int) ≤ cntSum letters_count) &&
      decide (min_length ≤ word.length) &&
      is_valid_anagram letters_count word)).insertionSort ordKey

/-- The exclusion loop of `find_anagrams` (lines 48-54): apply
`subtract_letters` for each excluded word; on a `ValueError` return the
multiset as it stood before the failing call (the `except` branch returns
`[], letters_count`). -/
def exclLoop : Cnt → List String → Except Cnt Cnt
  | letters_count, [] => .ok letters_count
  | letters_count, word :: rest =>
    match subtract_letters letters_count word with
    | .ok reduced => exclLoop reduced rest
    | .error _ => .error letters_count

/-- `find_anagrams(letters, word_list, min_length, exclude_words)`
(lines 42-63). -/
def find_anagrams (letters : String) (word_list : List String)
    (min_length : Nat) (exclude_words : List String) : List String × Cnt :=
  let letters_count := counterStr (lowerStr (stripSpaces letters))
  match exclLoop letters_count exclude_words with
  | .error lc => ([], lc)
  | .ok lc => (matchStage lc word_list min_length, lc)

/-- Total version of `subtract_letters` used inside `generate_sentence`,
where the source calls it bare (an exception would propagate, but
`subLoop_total` below proves the error branch unreachable, so the
`.error` fallback is dead). -/
def subD (m : Cnt) (w : String) : Cnt :=
  match subtract_letters m w with
  | .ok r => r
  | .error _ => m

/-- The length-descending stable sort of line 70,
`sorted(anagrams, key=len, reverse=True)` (`reverse=True` flips the
comparison, keeping equal-length words in original order). -/
def lenGe (a b : String) : Prop := b.length ≤ a.length

instance : DecidableRel lenGe := fun a b => by
  unfold lenGe
  infer_instance

/-- `find_full_match(words, current_words, remaining)` (lines 77-89).  The
`for i, word in enumerate(words)` loop recursing on `words[i+1:]` is
rendered as structural recursion on the word list: trying index `i = 0`
and then continuing with the tail.  Re-entering the function for the
continuation re-tests the two base conditions, which is sound because
`remaining` and `current_words` are loop invariants and both conditions
were already false on entry.  The `if result:` test treats `None` and the
empty list as failure, hence the `r = []` check. -/
def find_full_match : List String → List String → Cnt → Option (List String)
  | words, current_words, remaining =>
    if remaining = [] ∧ current_words ≠ [] then some current_words
    else
      match words with
      | [] => none
      | word :: rest =>
        if is_valid_anagram remaining word then
          match find_full_match rest (current_words ++ [word]) (subD remaining word) with
          | some r => if r = [] then find_full_match rest current_words remaining
                      else some r
          | none => find_full_match rest current_words remaining
        else find_full_match rest current_words remaining

/-- The greedy partial-mode loop of lines 98-105, carrying the accepted
words and the `used_letters` Counter. -/
def greedyLoop (remaining_letters : Cnt) :
    List String → List String → Cnt → List String
  | [], sentence_words, _ => sentence_words
  | word :: rest, sentence_words, used_letters =>
    let word_count := counterStr word
    let ok := (word_count.map Prod.fst).all
      (fun c => decide (cntGet used_letters c + cntGet word_count c ≤
        cntGet remaining_letters c))
    let sw := if ok then sentence_words ++ [word] else sentence_words
    let ul := if ok then cntUpdate used_letters word_count else used_letters
    if 3 ≤ sw.length then sw else greedyLoop remaining_letters rest sw ul

/-- The Python `str.capitalize` method: first character uppercased, the
rest lowercased. -/
def pyCapitalize (s : String) : String :=
  match s.data with
  | [] => ""
  | c :: rest => ⟨Char.toUpper c :: rest.map Char.toLower⟩

/-- Sentence text construction (lines 111-116).  The empty case cannot be
reached from `generate_sentence` (both callers guard against it). -/
def mkSentence : List String → String
  | [] => ""
  | [w] => pyCapitalize w ++ "."
  | [w1, w2] => pyCapitalize w1 ++ " " ++ w2 ++ "."
  | w :: rest => pyCapitalize w ++ " " ++ String.intercalate " " rest ++ "."

/-- `generate_sentence(anagrams, remaining_letters, full_match)`
(lines 65-116). -/
def generate_sentence (anagrams : List String) (remaining_letters : Cnt)
    (full_match : Bool) : String :=
  if anagrams = [] then "No sentence possible."
  else
    let available_words := anagrams.insertionSort lenGe
    if full_match then
      match find_full_match available_words [] remaining_letters with
      | some r => if r = [] then "No full-match sentence possible." else mkSentence r
      | none => "No full-match sentence possible."
    else
      let sentence_words := greedyLoop remaining_letters available_words [] []
      if sentence_words = [] then "No sentence possible." else mkSentence sentence_words

/-!
Behaviour of `subtract_letters`.  The central observation: after

    remaining[char] -= word_count[char]
    if remaining[char] <= 0: del remaining[char]

the lookup `remaining[char]` yields the freshly stored difference when it
is positive and `0` when the entry was just deleted, so the final
`if remaining[char] < 0: raise` test can never fire.
-/

/-- The net effect of one loop iteration of `subtract_letters` on the
`remaining` Counter for a present character `c`, where `k` is the count of
`c` in the word. -/
def subStep (m : Cnt) (c : Char) (k : Int) : Cnt :=
  if cntGet (cntSet m c (cntGet m c - k)) c ≤ 0
  then cntDel (cntSet m c (cntGet m c - k)) c
  else cntSet m c (cntGet m c - k)

theorem subLoop_cons_skip (word : String) (wc : Cnt) (c : Char)
    (rest : List Char) (m : Cnt) (hm : cntMem m c = false) :
    subLoop word wc (c :: rest) m = subLoop word wc rest m := by
  rw [subLoop]
  simp [hm]

theorem subLoop_cons_mem (word : String) (wc : Cnt) (c : Char)
    (rest : List Char) (m : Cnt) (hm : cntMem m c = true) :
    subLoop word wc (c :: rest) m =
      subLoop word wc rest (subStep m c (cntGet wc c)) := by
  rw [subLoop]
  simp only [hm, if_true]
  rw [cntGet_set_self]
  by_cases hle : cntGet m c - cntGet wc c ≤ 0
  · have h0 : cntGet (cntDel (cntSet m c (cntGet m c - cntGet wc c)) c) c = 0 :=
      cntGet_del_self _ c
    simp only [subStep, hle, if_true, if_pos, h0]
    rw [if_neg (by omega), cntGet_set_self, if_pos hle]
  · have hpos : ¬ (cntGet m c - cntGet wc c < 0) := by omega
    simp only [subStep, hle, if_false]
    rw [cntGet_set_self, if_neg hpos, if_neg hle]

theorem cntGet_subStep_self (m : Cnt) (c : Char) (k : Int) :
    cntGet (subStep m c k) c =
      if cntGet m c - k ≤ 0 then 0 else cntGet m c - k := by
  unfold subStep
  rw [cntGet_set_self]
  by_cases hle : cntGet m c - k ≤ 0
  · simp [hle, cntGet_del_self]
  · simp [hle, cntGet_set_self]

theorem cntGet_subStep_ne (m : Cnt) (c c' : Char) (k : Int) (h : c' ≠ c) :
    cntGet (subStep m c k) c' = cntGet m c' := by
  unfold subStep
  by_cases hle : cntGet (cntSet m c (cntGet m c - k)) c ≤ 0
  · rw [if_pos hle, cntGet_del_ne _ c c' h, cntGet_set_ne m c c' _ h]
  · rw [if_neg hle, cntGet_set_ne m c c' _ h]

theorem cntMem_subStep_ne (m : Cnt) (c c' : Char) (k : Int) (h : c' ≠ c) :
    cntMem (subStep m c k) c' = cntMem m c' := by
  unfold subStep
  by_cases hle : cntGet (cntSet m c (cntGet m c - k)) c ≤ 0
  · rw [if_pos hle, cntMem_del_ne _ c c' h, cntMem_set_ne m c c' _ h]
  · rw [if_neg hle, cntMem_set_ne m c c' _ h]

theorem mem_del_key (m : Cnt) (c : Char) (p : Char × Int)
    (h : p ∈ cntDel m c) : p ∈ m ∧ ¬ (p.1 = c) := by
  unfold cntDel at h
  have := List.mem_filter.mp h
  refine ⟨this.1, ?_⟩
  simpa using this.2

theorem mem_subStep (m : Cnt) (c : Char) (k : Int) (p : Char × Int)
    (h : p ∈ subStep m c k) : p ∈ m ∨ 0 < p.2 := by
  unfold subStep at h
  by_cases hle : cntGet (cntSet m c (cntGet m c - k)) c ≤ 0
  · rw [if_pos hle] at h
    obtain ⟨h1, h2⟩ := mem_del_key _ c p h
    rcases mem_of_mem_set m c _ p h1 with h3 | h3
    · exact Or.inl h3
    · exact absurd (by rw [h3]) h2
  · rw [if_neg hle] at h
    rw [cntGet_set_self] at hle
    rcases mem_of_mem_set m c _ p h with h3 | h3
    · exact Or.inl h3
    · right
      rw [h3]
      simpa using lt_of_not_le hle

theorem WFcnt_subStep (m : Cnt) (c : Char) (k : Int) (h : WFcnt m) :
    WFcnt (subStep m c k) := by
  unfold subStep
  by_cases hle : cntGet (cntSet m c (cntGet m c - k)) c ≤ 0
  · rw [if_pos hle]
    refine ⟨nodup_keys_del _ c (nodup_keys_set m c _ h.1), ?_⟩
    intro p hp
    obtain ⟨h1, h2⟩ := mem_del_key _ c p hp
    rcases mem_of_mem_set m c _ p h1 with h3 | h3
    · exact h.2 p h3
    · exact absurd (by rw [h3]) h2
  · rw [if_neg hle]
    rw [cntGet_set_self] at hle
    refine ⟨nodup_keys_set m c _ h.1, ?_⟩
    intro p hp
    rcases mem_of_mem_set m c _ p hp with h3 | h3
    · exact h.2 p h3
    · rw [h3]
      simpa using lt_of_not_le hle

theorem cntSum_subStep_covers (m : Cnt) (c : Char) (k : Int)
    (hnd : (m.map Prod.fst).Nodup) (hk : 0 ≤ cntGet m c - k) :
    cntSum (subStep m c k) = cntSum m - k := by
  unfold subStep
  rw [cntGet_set_self]
  by_cases hle : cntGet m c - k ≤ 0
  · have heq : cntGet m c = k := by omega
    rw [if_pos hle, cntSum_del _ c (nodup_keys_set m c _ hnd),
      cntGet_set_self, cntSum_set m c _ hnd, heq]
    ring
  · rw [if_neg hle, cntSum_set m c _ hnd]
    ring

theorem cntGet_subStep_covers (m : Cnt) (c : Char) (k : Int)
    (hk : 0 ≤ cntGet m c - k) :
    cntGet (subStep m c k) c = cntGet m c - k := by
  rw [cntGet_subStep_self]
  by_cases hle : cntGet m c - k ≤ 0
  · have heq : cntGet m c - k = 0 := le_antisymm hle hk
    simp [hle, heq]
  · simp [hle]

theorem subLoop_total (word : String) (wc : Cnt) :
    ∀ (chars : List Char) (m : Cnt),
    ∃ r, subLoop word wc chars m = .ok r ∧
      (∀ p ∈ r, p ∈ m ∨ 0 < p.2) ∧
      ∀ c, cntMem m c = false → cntMem r c = false := by
  intro chars
  induction chars with
  | nil => exact fun m => ⟨m, rfl, fun p hp => Or.inl hp, fun c h => h⟩
  | cons c rest ih =>
    intro m
    by_cases hm : cntMem m c
    · obtain ⟨r, hok, hent, hmemf⟩ := ih (subStep m c (cntGet wc c))
      refine ⟨r, ?_, ?_, ?_⟩
      · rw [subLoop_cons_mem word wc c rest m hm]
        exact hok
      · intro p hp
        rcases hent p hp with h | h
        · exact mem_subStep m c _ p h
        · exact Or.inr h
      · intro c' hc'
        have hne : c' ≠ c := fun he => by rw [he] at hc'; rw [hm] at hc'; cases hc'
        exact hmemf c' (by rw [cntMem_subStep_ne m c c' _ hne]; exact hc')
    · obtain ⟨r, hok, hent, hmemf⟩ := ih m
      refine ⟨r, ?_, hent, hmemf⟩
      rw [subLoop_cons_skip word wc c rest m (by simpa using hm)]
      exact hok

theorem subLoop_all_absent (word : String) (wc : Cnt) :
    ∀ (chars : List Char) (m : Cnt),
    (∀ c ∈ chars, cntMem m c = false) →
    subLoop word wc chars m = .ok m := by
  intro chars
  induction chars with
  | nil => exact fun m _ => rfl
  | cons c rest ih =>
    intro m h
    rw [subLoop_cons_skip word wc c rest m (h c (by simp))]
    exact ih m (fun c' hc' => h c' (List.mem_cons_of_mem c hc'))

theorem subLoop_covers (word : String) (wc : Cnt) :
    ∀ (chars : List Char) (m : Cnt),
    WFcnt m → chars.Nodup →
    (∀ c ∈ chars, 0 < cntGet wc c ∧ cntGet wc c ≤ cntGet m c) →
    ∃ r, subLoop word wc chars m = .ok r ∧ WFcnt r ∧
      (∀ c, cntGet r c = cntGet m c - (if c ∈ chars then cntGet wc c else 0)) ∧
      cntSum r = cntSum m - (chars.map (cntGet wc)).sum := by
  intro chars
  induction chars with
  | nil =>
    intro m hWF _ _
    exact ⟨m, rfl, hWF, fun c => by simp, by simp [cntSum]⟩
  | cons c rest ih =>
    intro m hWF hnd hcov
    obtain ⟨hk, hkm⟩ := hcov c (by simp)
    have hm : cntMem m c = true :=
      (cntMem_iff_pos m c hWF.2).mpr (lt_of_lt_of_le hk hkm)
    have hk0 : 0 ≤ cntGet m c - cntGet wc c := by omega
    have hndr : rest.Nodup := (List.nodup_cons.mp hnd).2
    have hcr : c ∉ rest := (List.nodup_cons.mp hnd).1
    set m' := subStep m c (cntGet wc c) with hm'
    have hWF' : WFcnt m' := WFcnt_subStep m c _ hWF
    have hget' : cntGet m' c = cntGet m c - cntGet wc c :=
      cntGet_subStep_covers m c _ hk0
    have hgetne : ∀ c', c' ≠ c → cntGet m' c' = cntGet m c' :=
      fun c' h => cntGet_subStep_ne m c c' _ h
    have hsum' : cntSum m' = cntSum m - cntGet wc c :=
      cntSum_subStep_covers m c _ hWF.1 hk0
    have hcov' : ∀ c' ∈ rest, 0 < cntGet wc c' ∧ cntGet wc c' ≤ cntGet m' c' := by
      intro c' hc'
      have hne : c' ≠ c := fun he => hcr (he ▸ hc')
      obtain ⟨h1, h2⟩ := hcov c' (List.mem_cons_of_mem c hc')
      exact ⟨h1, by rw [hgetne c' hne]; exact h2⟩
    obtain ⟨r, hok, hWFr, hgetr, hsumr⟩ := ih m' hWF' hndr hcov'
    refine ⟨r, ?_, hWFr, ?_, ?_⟩
    · rw [subLoop_cons_mem word wc c rest m hm]
      exact hok
    · intro c''
      by_cases hc'' : c'' = c
      · subst hc''
        rw [hgetr c'', if_neg (by exact fun h => hcr h), hget']
        simp
      · rw [hgetr c'', hgetne c'' hc'']
        by_cases hr : c'' ∈ rest
        · simp [hr, List.mem_cons, hc'']
        · simp [hr, List.mem_cons, hc'']
    · rw [hsumr, hsum']
      simp only [List.map_cons, List.sum_cons]
      ring

theorem subtract_letters_total (m : Cnt) (w : String) :
    ∃ r, subtract_letters m w = .ok r ∧
      ((∀ p ∈ m, 0 < p.2) → ∀ p ∈ r, 0 < p.2) ∧
      ((∀ c ∈ (lowerStr w).data, cntMem m c = false) → r = m) := by
  obtain ⟨r, hok, hent, _⟩ :=
    subLoop_total w (counterStr (lowerStr w))
      ((counterStr (lowerStr w)).map Prod.fst) m
  refine ⟨r, hok, ?_, ?_⟩
  · intro hpos p hp
    rcases hent p hp with h | h
    · exact hpos p h
    · exact h
  · intro habs
    have h2 : subLoop w (counterStr (lowerStr w))
        ((counterStr (lowerStr w)).map Prod.fst) m = .ok m := by
      apply subLoop_all_absent
      intro c hc
      exact habs c ((keys_counterStr (lowerStr w) c).mp hc)
    rw [hok] at h2
    exact ((Except.ok.injEq _ _).mp h2.symm).symm

theorem is_valid_anagram_iff (m : Cnt) (w : String) :
    is_valid_anagram m w = true ↔
      ∀ c ∈ w.data, (w.data.count c : Int) ≤ cntGet m c := by
  unfold is_valid_anagram
  rw [List.all_eq_true]
  constructor
  · intro h c hc
    have hk : c ∈ (counterStr w).map Prod.fst := (keys_counterStr w c).mpr hc
    have := h c hk
    rw [decide_eq_true_eq, cntGet_counterStr] at this
    exact this
  · intro h c hc
    rw [decide_eq_true_eq, cntGet_counterStr]
    exact h c ((keys_counterStr w c).mp hc)

theorem subtract_letters_covers (m : Cnt) (w : String)
    (hWF : WFcnt m) (hl : lowerStr w = w)
    (hcov : is_valid_anagram m w = true) :
    ∃ r, subtract_letters m w = .ok r ∧ WFcnt r ∧
      (∀ c, cntGet r c = cntGet m c - (w.data.count c : Int)) ∧
      cntSum r = cntSum m - (w.length : Int) := by
  unfold subtract_letters
  rw [hl]
  have hwf := counterStr_WF w
  have hcnt := fun c => cntGet_counterStr w c
  obtain ⟨r, hok, hWFr, hget, hsum⟩ :=
    subLoop_covers w (counterStr w) ((counterStr w).map Prod.fst) m hWF
      hwf.1
      (by
        intro c hc
        constructor
        · exact (cntMem_iff_pos _ c hwf.2).mp ((cntMem_iff_keys _ c).mpr hc)
        · have := (is_valid_anagram_iff m w).mp hcov c ((keys_counterStr w c).mp hc)
          rw [hcnt c]
          exact this)
  refine ⟨r, hok, hWFr, ?_, ?_⟩
  · intro c
    rw [hget c]
    by_cases hc : c ∈ (counterStr w).map Prod.fst
    · rw [if_pos hc, hcnt c]
    · rw [if_neg hc]
      have : c ∉ w.data := fun h => hc ((keys_counterStr w c).mpr h)
      rw [List.count_eq_zero.mpr this]
      simp
  · rw [hsum]
    have hmk : ((counterStr w).map Prod.fst).map (cntGet (counterStr w)) =
        (counterStr w).map Prod.snd := map_keys_get _ hwf.1
    rw [hmk]
    have : ((counterStr w).map Prod.snd).sum = cntSum (counterStr w) := rfl
    rw [this, cntSum_counterStr]
    have hlen : w.length = w.data.length := rfl
    rw [hlen]

/-! Behaviour of the full-match backtracking search. -/

theorem ffm_ne_nil : ∀ (words current : List String) (remaining : Cnt)
    (r : List String),
    find_full_match words current remaining = some r → r ≠ [] := by
  intro words
  induction words with
  | nil =>
    intro current remaining r h
    rw [find_full_match] at h
    by_cases hb : remaining = [] ∧ current ≠ []
    · rw [if_pos hb] at h
      cases h
      exact hb.2
    · rw [if_neg hb] at h
      cases h
  | cons w rest ih =>
    intro current remaining r h
    rw [find_full_match] at h
    by_cases hb : remaining = [] ∧ current ≠ []
    · rw [if_pos hb] at h
      cases h
      exact hb.2
    · rw [if_neg hb] at h
      by_cases hv : is_valid_anagram remaining w = true
      · rw [if_pos hv] at h
        rcases hr : find_full_match rest (current ++ [w]) (subD remaining w) with _ | r'
        · rw [hr] at h
          exact ih current remaining r h
        · rw [hr] at h
          have h2 : (if r' = [] then find_full_match rest current remaining
              else some r') = some r := h
          by_cases hr' : r' = []
          · rw [if_pos hr'] at h2
            exact ih current remaining r h2
          · rw [if_neg hr'] at h2
            cases h2
            exact hr'
      · rw [if_neg hv] at h
        exact ih current remaining r h

/-- Soundness of `find_full_match`: when the words are lowercase (the data
model of the word list) and the remaining Counter is a genuine multiset,
any returned sequence extends `current_words` by a subsequence of `words`
whose letters, counted with multiplicity, exactly account for `remaining`. -/
theorem ffm_spec : ∀ (words current : List String) (remaining : Cnt)
    (r : List String),
    WFcnt remaining → (∀ w ∈ words, lowerStr w = w) →
    find_full_match words current remaining = some r →
    ∃ s, r = current ++ s ∧ s.Sublist words ∧
      ∀ c, cntGet remaining c = (s.map (fun w => ((w.data.count c : Int)))).sum := by
  intro words
  induction words with
  | nil =>
    intro current remaining r hWF _ h
    rw [find_full_match] at h
    by_cases hb : remaining = [] ∧ current ≠ []
    · rw [if_pos hb] at h
      cases h
      exact ⟨[], by simp, List.nil_sublist _, fun c => by simp [hb.1, cntGet]⟩
    · rw [if_neg hb] at h
      cases h
  | cons w rest ih =>
    intro current remaining r hWF hlow h
    rw [find_full_match] at h
    by_cases hb : remaining = [] ∧ current ≠ []
    · rw [if_pos hb] at h
      cases h
      exact ⟨[], by simp, List.nil_sublist _, fun c => by simp [hb.1, cntGet]⟩
    · rw [if_neg hb] at h
      have hlw : lowerStr w = w := hlow w (by simp)
      have hlrest : ∀ w' ∈ rest, lowerStr w' = w' :=
        fun w' hw' => hlow w' (List.mem_cons_of_mem w hw')
      by_cases hv : is_valid_anagram remaining w = true
      · rw [if_pos hv] at h
        obtain ⟨r2, hok, hWF2, hget2, _⟩ :=
          subtract_letters_covers remaining w hWF hlw hv
        have hsubD : subD remaining w = r2 := by
          unfold subD
          rw [hok]
        rcases hr : find_full_match rest (current ++ [w]) (subD remaining w)
          with _ | r'
        · rw [hr] at h
          obtain ⟨s, hs1, hs2, hs3⟩ := ih current remaining r hWF hlrest h
          exact ⟨s, hs1, hs2.cons w, hs3⟩
        · rw [hr] at h
          have h2 : (if r' = [] then find_full_match rest current remaining
              else some r') = some r := h
          by_cases hr' : r' = []
          · rw [if_pos hr'] at h2
            obtain ⟨s, hs1, hs2, hs3⟩ := ih current remaining r hWF hlrest h2
            exact ⟨s, hs1, hs2.cons w, hs3⟩
          · rw [if_neg hr'] at h2
            cases h2
            rw [hsubD] at hr
            obtain ⟨s, hs1, hs2, hs3⟩ := ih (current ++ [w]) r2 _ hWF2 hlrest hr
            refine ⟨w :: s, ?_, hs2.cons₂ w, ?_⟩
            · rw [hs1, List.append_assoc]
              rfl
            · intro c
              have h1 := hget2 c
              have h2 := hs3 c
              simp only [List.map_cons, List.sum_cons]
              omega
      · rw [if_neg hv] at h
        obtain ⟨s, hs1, hs2, hs3⟩ := ih current remaining r hWF hlrest h
        exact ⟨s, hs1, hs2.cons w, hs3⟩

/-! Behaviour of the anagram matcher stage. -/

theorem matchStage_mem (lc : Cnt) (wl : List String) (L : Nat) (W : String) :
    W ∈ matchStage lc wl L ↔
      W ∈ wl ∧ (W.length : Int) ≤ cntSum lc ∧ L ≤ W.length ∧
        is_valid_anagram lc W = true := by
  unfold matchStage
  rw [List.mem_insertionSort, List.mem_filter]
  simp [and_assoc]

theorem matchStage_sorted (lc : Cnt) (wl : List String) (L : Nat) :
    List.Sorted ordKey (matchStage lc wl L) :=
  List.sorted_insertionSort ordKey _

theorem matchStage_perm_inv (lc : Cnt) (wl wl' : List String) (L : Nat)
    (h : wl.Perm wl') : matchStage lc wl L = matchStage lc wl' L := by
  apply List.eq_of_perm_of_sorted ?_ (matchStage_sorted lc wl L)
    (matchStage_sorted lc wl' L)
  exact ((List.perm_insertionSort ordKey _).trans (h.filter _)).trans
    (List.perm_insertionSort ordKey _).symm

/-! Behaviour of the greedy partial-mode loop. -/

theorem cntGet_cntUpdate (wc : Cnt) (hnd : (wc.map Prod.fst).Nodup) :
    ∀ (u : Cnt) (c : Char),
    cntGet (cntUpdate u wc) c = cntGet u c + cntGet wc c := by
  induction wc with
  | nil =>
    intro u c
    simp [cntUpdate, cntGet]
  | cons p rest ih =>
    intro u c
    simp only [List.map_cons, List.nodup_cons] at hnd
    have hstep : cntUpdate u (p :: rest) =
        cntUpdate (cntSet u p.1 (cntGet u p.1 + p.2)) rest := rfl
    rw [hstep, ih hnd.2]
    by_cases hc : c = p.1
    · subst hc
      rw [cntGet_set_self]
      have hmr : cntMem rest p.1 = false := by
        rcases hm : cntMem rest p.1
        · rfl
        · exact absurd ((cntMem_iff_keys rest p.1).mp hm) hnd.1
      rw [cntGet_of_not_mem rest p.1 hmr]
      simp [cntGet]
    · rw [cntGet_set_ne u p.1 c _ hc]
      have hpc : ¬ (p.1 = c) := fun he => hc he.symm
      simp [cntGet, hpc]

theorem greedyLoop_cons (remaining : Cnt) (w : String) (rest sw : List String)
    (used : Cnt) :
    greedyLoop remaining (w :: rest) sw used =
      (let ok := ((counterStr w).map Prod.fst).all
        (fun c => decide (cntGet used c + cntGet (counterStr w) c ≤
          cntGet remaining c));
       let sw2 := if ok then sw ++ [w] else sw;
       let ul := if ok then cntUpdate used (counterStr w) else used;
       if 3 ≤ sw2.length then sw2 else greedyLoop remaining rest sw2 ul) := rfl

theorem greedyLoop_spec (remaining : Cnt) :
    ∀ (ws sw : List String) (used : Cnt),
    (∀ c, cntGet used c = (sw.map (fun w => ((w.data.count c : Int)))).sum) →
    (∀ c, cntGet used c ≤ cntGet remaining c) →
    sw.length < 3 →
    ∃ ext, greedyLoop remaining ws sw used = sw ++ ext ∧
      ext.Sublist ws ∧ (sw ++ ext).length ≤ 3 ∧
      (∀ c, ((sw ++ ext).map (fun w => ((w.data.count c : Int)))).sum ≤
        cntGet remaining c) := by
  intro ws
  induction ws with
  | nil =>
    intro sw used hinv hbound hlen
    refine ⟨[], by simp [greedyLoop], List.nil_sublist _, by simp; omega, ?_⟩
    intro c
    rw [List.append_nil]
    rw [← hinv c]
    exact hbound c
  | cons w rest ih =>
    intro sw used hinv hbound hlen
    have hwwf := counterStr_WF w
    rcases hok : ((counterStr w).map Prod.fst).all
        (fun c => decide (cntGet used c + cntGet (counterStr w) c ≤
          cntGet remaining c)) with _ | _
    · -- rejected: sw and used unchanged, 3 <= sw.length is false
      have hred : greedyLoop remaining (w :: rest) sw used =
          greedyLoop remaining rest sw used := by
        rw [greedyLoop_cons]
        simp only [hok, Bool.false_eq_true, if_false]
        rw [if_neg (by omega)]
      rw [hred]
      obtain ⟨ext, h1, h2, h3, h4⟩ := ih sw used hinv hbound hlen
      exact ⟨ext, h1, h2.cons w, h3, h4⟩
    · -- accepted
      have hall := List.all_eq_true.mp hok
      have hinv2 : ∀ c, cntGet (cntUpdate used (counterStr w)) c =
          ((sw ++ [w]).map (fun w => ((w.data.count c : Int)))).sum := by
        intro c
        rw [cntGet_cntUpdate (counterStr w) hwwf.1 used c, hinv c,
          cntGet_counterStr]
        simp
      have hbound2 : ∀ c, cntGet (cntUpdate used (counterStr w)) c ≤
          cntGet remaining c := by
        intro c
        rw [cntGet_cntUpdate (counterStr w) hwwf.1 used c]
        by_cases hc : c ∈ (counterStr w).map Prod.fst
        · have := hall c hc
          rw [decide_eq_true_eq] at this
          exact this
        · have hc2 : c ∉ w.data := fun h => hc ((keys_counterStr w c).mpr h)
          rw [cntGet_counterStr, List.count_eq_zero.mpr hc2]
          simpa using hbound c
      by_cases h3 : 3 ≤ (sw ++ [w]).length
      · have hred : greedyLoop remaining (w :: rest) sw used = sw ++ [w] := by
          rw [greedyLoop_cons]
          simp only [hok, if_true]
          rw [if_pos h3]
        rw [hred]
        refine ⟨[w], rfl, ?_, ?_, ?_⟩
        · exact (List.nil_sublist rest).cons₂ w
        · simp only [List.length_append, List.length_singleton]
          omega
        · intro c
          rw [← hinv2 c]
          exact hbound2 c
      · have hred : greedyLoop remaining (w :: rest) sw used =
            greedyLoop remaining rest (sw ++ [w]) (cntUpdate used (counterStr w)) := by
          rw [greedyLoop_cons]
          simp only [hok, if_true]
          rw [if_neg h3]
        rw [hred]
        obtain ⟨ext, h1, h2, hlen3, h4⟩ :=
          ih (sw ++ [w]) (cntUpdate used (counterStr w)) hinv2 hbound2
            (by simp at h3 ⊢; omega)
        refine ⟨w :: ext, ?_, h2.cons₂ w, ?_, ?_⟩
        · rw [h1, List.append_assoc]
          rfl
        · simpa [List.append_assoc] using hlen3
        · intro c
          have := h4 c
          simpa [List.append_assoc] using this

/-!
Claim theorems.
-/

/-- C1: the specification claims that `subtract(base, word)` fails with an
`InsufficientLetters` error whenever a character of the word is absent from
the base or its count would go negative.  The code does not: the
`if char in remaining` guard silently skips absent characters, and the
`del` executed before the negativity test makes the `raise` unreachable.
At the failing input base = Counter("cat"), word = "dog", the call
returns the base unchanged with no error. -/
theorem C1_subtract_dog_from_cat_silently_succeeds :
    cntMem (counterStr "cat") 'd' = false ∧
    cntMem (counterStr "cat") 'o' = false ∧
    cntMem (counterStr "cat") 'g' = false ∧
    subtract_letters (counterStr "cat") "dog" = .ok (counterStr "cat") :=
  ⟨rfl, rfl, rfl, rfl⟩

/-- C2: the specification claims that for letters "cat" with exclusion
["dog"] the subtraction fails with `InsufficientLetters` and the result is
an empty anagram list.  In the code the subtraction silently succeeds
without removing anything, so the anagram search proceeds and, with "cat"
in the word list, returns a non-empty result alongside the unchanged
multiset {a:1, c:1, t:1}. -/
theorem C2_exclusion_dog_from_cat_does_not_fail :
    find_anagrams "cat" ["cat"] 1 ["dog"] = (["cat"], counterStr "cat") ∧
    (find_anagrams "cat" ["cat"] 1 ["dog"]).1 ≠ [] := by
  constructor
  · rfl
  · decide

/-- C10: `subtract_letters` is total and never raises for any base Counter
and word: the error branch is unreachable (the lookup after `del` yields
the Counter default 0, never a negative value), a base whose stored counts
are all strictly positive yields a result whose stored counts are all
strictly positive, and a word all of whose (lowercased) characters are
absent from the base leaves the base untouched. -/
theorem C10_subtract_letters_total_never_raises (m : Cnt) (w : String) :
    ∃ r, subtract_letters m w = .ok r ∧
      ((∀ p ∈ m, 0 < p.2) → ∀ p ∈ r, 0 < p.2) ∧
      ((∀ c ∈ (lowerStr w).data, cntMem m c = false) → r = m) :=
  subtract_letters_total m w

/-- Witness for C10 at base Counter("aab"), word "ab". -/
theorem C10_subtract_letters_total_never_raises_witness :
    ∃ r, subtract_letters (counterStr "aab") "ab" = .ok r ∧
      ∀ p ∈ r, 0 < p.2 := by
  obtain ⟨r, hok, hpos, _⟩ :=
    C10_subtract_letters_total_never_raises (counterStr "aab") "ab"
  exact ⟨r, hok, hpos (by decide)⟩

/-- C9: for a multiset `M` and a (lowercase, as in the word-list data
model) word `W` with `covers(M, W)`, the subtraction succeeds and the
total letter count drops by exactly `len(W)`. -/
theorem C9_subtract_decreases_total_by_len (M : Cnt) (W : String)
    (hWF : WFcnt M) (hl : lowerStr W = W)
    (hcov : is_valid_anagram M W = true) :
    ∃ r, subtract_letters M W = .ok r ∧
      cntSum r = cntSum M - (W.length : Int) := by
  obtain ⟨r, hok, _, _, hsum⟩ := subtract_letters_covers M W hWF hl hcov
  exact ⟨r, hok, hsum⟩

/-- Witness for C9 at M = Counter("cat"), W = "cat". -/
theorem C9_subtract_decreases_total_by_len_witness :
    ∃ r, subtract_letters (counterStr "cat") "cat" = .ok r ∧
      cntSum r = cntSum (counterStr "cat") - (("cat".length : Nat) : Int) :=
  C9_subtract_decreases_total_by_len (counterStr "cat") "cat"
    (by decide) (by decide) (by decide)

/-- C7 counterexample: the specification claims `covers` case-folds, so an
upper-case word would cover exactly when its lower-case form does.  The
code builds `Counter(word)` without lowering: over base Counter("cat"),
"CAT" is rejected while "cat" is accepted. -/
theorem C7_no_case_folding_counterexample :
    is_valid_anagram (counterStr "cat") "CAT" = false ∧
    is_valid_anagram (counterStr "cat") "cat" = true := by
  decide

/-- C7 (amended): `covers(base, word)` is true iff every character of the
word, taken as written (no case-folding), occurs in `base` with count at
least the word count of that character; the check reads `base` without
mutating it (the embedding is a pure function of `base`). -/
theorem C7_covers_characterisation (base : Cnt) (word : String) :
    is_valid_anagram base word = true ↔
      ∀ c ∈ word.data, (word.data.count c : Int) ≤ cntGet base c :=
  is_valid_anagram_iff base word

/-- C3: a word is in the matcher output iff it is in the word list, its
length is bounded by the total remaining count and below by the minimum
length, and it is covered by the letter multiset. -/
theorem C3_matcher_membership (lc : Cnt) (wl : List String) (L : Nat)
    (W : String) :
    W ∈ matchStage lc wl L ↔
      W ∈ wl ∧ (W.length : Int) ≤ cntSum lc ∧ L ≤ W.length ∧
        is_valid_anagram lc W = true :=
  matchStage_mem lc wl L W

/-- C4: the matcher output is sorted by length descending with ties in
ascending lexicographic order, and is invariant under permutations of the
word list (hence independent of set iteration order). -/
theorem C4_matcher_sorted_and_deterministic (lc : Cnt) (wl : List String)
    (L : Nat) :
    List.Sorted ordKey (matchStage lc wl L) ∧
    ∀ wl', wl.Perm wl' → matchStage lc wl L = matchStage lc wl' L :=
  ⟨matchStage_sorted lc wl L, fun wl' h => matchStage_perm_inv lc wl wl' L h⟩

/-- Witness for C4 on the "listen" scenario with two different list
orders of the same word set. -/
theorem C4_matcher_sorted_and_deterministic_witness :
    List.Sorted ordKey
      (matchStage (counterStr "listen") ["tin", "enlist", "silent", "lens"] 1) ∧
    matchStage (counterStr "listen") ["tin", "enlist", "silent", "lens"] 1 =
      matchStage (counterStr "listen") ["silent", "enlist", "tin", "lens"] 1 :=
  ⟨(C4_matcher_sorted_and_deterministic (counterStr "listen")
      ["tin", "enlist", "silent", "lens"] 1).1,
   (C4_matcher_sorted_and_deterministic (counterStr "listen")
      ["tin", "enlist", "silent", "lens"] 1).2
      ["silent", "enlist", "tin", "lens"] (by decide)⟩

/-- C5: whenever the full-match search returns a word sequence, at least
one word is chosen, the chosen words form a subsequence of the candidate
list (each candidate used at most once, in order of position), and their
letters counted with multiplicity exactly equal the remaining multiset. -/
theorem C5_full_match_exact_cover (words : List String) (target : Cnt)
    (ws : List String) (hWF : WFcnt target)
    (hlow : ∀ w ∈ words, lowerStr w = w)
    (h : find_full_match words [] target = some ws) :
    ws ≠ [] ∧ ws.Sublist words ∧
      ∀ c, (ws.map (fun w => ((w.data.count c : Int)))).sum =
        cntGet target c := by
  obtain ⟨s, hs1, hs2, hs3⟩ := ffm_spec words [] target ws hWF hlow h
  have hws : ws = s := by simpa using hs1
  refine ⟨ffm_ne_nil words [] target ws h, hws ▸ hs2, ?_⟩
  intro c
  rw [hws]
  exact (hs3 c).symm

/-- Witness for C5 on the "ox" scenario. -/
theorem C5_full_match_exact_cover_witness :
    (["ox"] : List String) ≠ [] ∧ List.Sublist ["ox"] ["ox"] ∧
      ∀ c, ((["ox"] : List String).map
        (fun w => ((w.data.count c : Int)))).sum = cntGet (counterStr "ox") c :=
  C5_full_match_exact_cover ["ox"] (counterStr "ox") ["ox"]
    (by decide) (by decide) (by decide)

/-- C6 counterexample: the claim includes the empty matched-word list, but
for empty `anagrams` the composer returns early with the literal
"No sentence possible." (line 67-68), not the full-match sentinel, even in
full-match mode with a non-empty residual (where no combination exists). -/
theorem C6_empty_list_returns_other_sentinel :
    generate_sentence [] (counterStr "x") true = "No sentence possible." ∧
    generate_sentence [] (counterStr "x") true ≠
      "No full-match sentence possible." := by
  constructor
  · rfl
  · decide

/-- C6 (amended): in full-match mode, for every non-empty matched-word
list (of lowercase words, per the word-list data model) and multiset for
which no non-empty combination of candidate words exactly consumes the
multiset, the composer returns exactly "No full-match sentence possible.";
for an empty matched-word list it returns "No sentence possible." instead. -/
theorem C6_full_match_sentinel (anagrams : List String) (target : Cnt)
    (hne : anagrams ≠ []) (hWF : WFcnt target)
    (hlow : ∀ w ∈ anagrams, lowerStr w = w)
    (hno : ¬ ∃ ws, ws ≠ [] ∧ ws.Subperm anagrams ∧
      ∀ c, (ws.map (fun w => ((w.data.count c : Int)))).sum = cntGet target c) :
    generate_sentence anagrams target true =
      "No full-match sentence possible." := by
  unfold generate_sentence
  rw [if_neg hne]
  simp only [if_true]
  rcases hffm : find_full_match (anagrams.insertionSort lenGe) [] target
    with _ | ws
  · simp [hffm]
  · exfalso
    apply hno
    have hlow2 : ∀ w ∈ anagrams.insertionSort lenGe, lowerStr w = w :=
      fun w hw => hlow w ((List.mem_insertionSort lenGe).mp hw)
    obtain ⟨s, hs1, hs2, hs3⟩ :=
      ffm_spec (anagrams.insertionSort lenGe) [] target ws hWF hlow2 hffm
    have hws : ws = s := by simpa using hs1
    refine ⟨ws, ffm_ne_nil _ [] target ws hffm, ?_, ?_⟩
    · have h1 : ws.Sublist (anagrams.insertionSort lenGe) := hws ▸ hs2
      exact h1.subperm.trans (List.perm_insertionSort lenGe anagrams).subperm
    · intro c
      rw [hws]
      exact (hs3 c).symm

/-- Witness for the amended C6: anagrams = ["a"], target = Counter("b");
the only non-empty sub-permutation ["a"] cannot account for the letter b. -/
theorem C6_full_match_sentinel_witness :
    generate_sentence ["a"] (counterStr "b") true =
      "No full-match sentence possible." := by
  apply C6_full_match_sentinel ["a"] (counterStr "b")
  · decide
  · decide
  · decide
  · rintro ⟨ws, hwne, hsub, hsum⟩
    obtain ⟨l, hperm, hsl⟩ := hsub
    rcases List.sublist_singleton.mp hsl with h | h
    · subst h
      exact hwne (hperm.symm.eq_nil)
    · subst h
      have hws : ws = ["a"] := (List.singleton_perm.mp hperm).symm
      subst hws
      have h := hsum 'b'
      exact absurd h (by decide)

/-- C8: in partial (greedy) mode over the length-descending stable order
of the matched words, the accepted words form a subsequence of that order
(scan order respected, each word at most once), at most 3 words are
accepted, their combined letters never exceed the remaining multiset in
any character, and when zero words are accepted the composer returns the
literal "No sentence possible.". -/
theorem C8_greedy_partial_mode (anagrams : List String) (remaining : Cnt)
    (hWF : WFcnt remaining) :
    (greedyLoop remaining (anagrams.insertionSort lenGe) [] []).Sublist
        (anagrams.insertionSort lenGe) ∧
    (greedyLoop remaining (anagrams.insertionSort lenGe) [] []).length ≤ 3 ∧
    (∀ c, ((greedyLoop remaining (anagrams.insertionSort lenGe) [] []).map
        (fun w => ((w.data.count c : Int)))).sum ≤ cntGet remaining c) ∧
    (greedyLoop remaining (anagrams.insertionSort lenGe) [] [] = [] →
      generate_sentence anagrams remaining false = "No sentence possible.") := by
  obtain ⟨ext, h1, h2, h3, h4⟩ := greedyLoop_spec remaining
    (anagrams.insertionSort lenGe) [] []
    (fun c => by simp [cntGet])
    (fun c => by
      have := cntGet_nonneg remaining c hWF.2
      simpa [cntGet] using this)
    (by simp)
  rw [List.nil_append] at h1 h3 h4
  rw [h1]
  refine ⟨h2, h3, h4, ?_⟩
  intro hg
  unfold generate_sentence
  by_cases ha : anagrams = []
  · rw [if_pos ha]
  · rw [if_neg ha]
    simp only [Bool.false_eq_true, if_false]
    rw [h1, hg]
    simp

/-- Witness for C8 at anagrams = ["ab"], remaining = Counter("ab"). -/
theorem C8_greedy_partial_mode_witness :
    (greedyLoop (counterStr "ab") ((["ab"] : List String).insertionSort lenGe) [] []).Sublist
        ((["ab"] : List String).insertionSort lenGe) ∧
    (greedyLoop (counterStr "ab") ((["ab"] : List String).insertionSort lenGe) [] []).length ≤ 3 ∧
    (∀ c, ((greedyLoop (counterStr "ab") ((["ab"] : List String).insertionSort lenGe) [] []).map
        (fun w => ((w.data.count c : Int)))).sum ≤ cntGet (counterStr "ab") c) ∧
    (greedyLoop (counterStr "ab") ((["ab"] : List String).insertionSort lenGe) [] [] = [] →
      generate_sentence ["ab"] (counterStr "ab") false = "No sentence possible.") :=
  C8_greedy_partial_mode ["ab"] (counterStr "ab") (by decide)
